import Mathlib

/-!
Verification of the chess-board-renderer core (src/main.go): the FEN-style
notation parser/validator (`validate`) and the board renderer (`render`),
shallowly embedded in Lean. Strings are handled through their character
lists; Go's `strings.Split(board, "/")` is `splitOnSlash`, the anchored
regular expression `^([rnbqkpRNBQKP1-8]{1,8}/){7}[rnbqkpRNBQKP1-8]{1,8}$`
is the recognizer `FEN` (the character class excludes `/`, so the regex is
deterministic: each group must consume a maximal run of class characters).
-/

/-- Piece mirrors the Go `Piece` enumeration (`Empty` is the zero value). -/
inductive Piece : Type where
  | Empty
  | WhitePawn
  | WhiteKnight
  | WhiteBishop
  | WhiteRook
  | WhiteQueen
  | WhiteKing
  | BlackPawn
  | BlackKnight
  | BlackBishop
  | BlackRook
  | BlackQueen
  | BlackKing
deriving DecidableEq, Repr

open Piece

/-- pieceChars mirrors the Go map `pieceChars`; a missing key yields the
map's zero value `Empty`, exactly as a Go map lookup does. -/
def pieceChars : Char → Piece
  | 'P' => WhitePawn
  | 'N' => WhiteKnight
  | 'B' => WhiteBishop
  | 'R' => WhiteRook
  | 'Q' => WhiteQueen
  | 'K' => WhiteKing
  | 'p' => BlackPawn
  | 'n' => BlackKnight
  | 'b' => BlackBishop
  | 'r' => BlackRook
  | 'q' => BlackQueen
  | 'k' => BlackKing
  | _ => Empty

/-- charAtoi models `strconv.Atoi(string(char))` with the error ignored, as
in the Go source: a decimal digit yields its value, anything else makes
`Atoi` fail and leaves the ignored-error result 0. -/
def charAtoi (c : Char) : Nat :=
  if c.isDigit then c.toNat - 48 else 0

/-- atoiSingle models `strconv.Atoi` on a one-character string faithfully,
keeping the error: it succeeds exactly on a decimal digit. -/
def atoiSingle (c : Char) : Option Nat :=
  if c.isDigit then some (c.toNat - 48) else none

/-- isFENChar is the character class `[rnbqkpRNBQKP1-8]` of the Go regex. -/
def isFENChar (c : Char) : Bool :=
  c = 'r' || c = 'n' || c = 'b' || c = 'q' || c = 'k' || c = 'p' ||
  c = 'R' || c = 'N' || c = 'B' || c = 'Q' || c = 'K' || c = 'P' ||
  c = '1' || c = '2' || c = '3' || c = '4' || c = '5' || c = '6' ||
  c = '7' || c = '8'

/-- FENmatchAux recognizes `([class]{1,8}/){n}[class]{1,8}` anchored at both
ends. Because the class excludes `/`, a matching group is forced to be the
maximal run of class characters at the current position, so the anchored
regex match is deterministic and needs no backtracking. -/
def FENmatchAux : Nat → List Char → Bool
  | 0, l =>
    let r := l.takeWhile isFENChar
    decide (1 ≤ r.length) && decide (r.length ≤ 8) &&
      (l.dropWhile isFENChar).isEmpty
  | n + 1, l =>
    let r := l.takeWhile isFENChar
    let d := l.dropWhile isFENChar
    decide (1 ≤ r.length) && decide (r.length ≤ 8) &&
      decide (d.head? = some '/') && FENmatchAux n d.tail

/-- FEN is the Go package variable `FEN`: the compiled anchored regex
`^([rnbqkpRNBQKP1-8]{1,8}/){7}[rnbqkpRNBQKP1-8]{1,8}$`, as a recognizer on
the character list of the input. -/
def FEN (l : List Char) : Bool := FENmatchAux 7 l

/-- splitOnSlash mirrors Go `strings.Split(s, "/")`: it never returns an
empty list, and splitting the empty string yields one empty segment. -/
def splitOnSlash : List Char → List (List Char)
  | [] => [[]]
  | c :: rest =>
    if c = '/' then [] :: splitOnSlash rest
    else
      match splitOnSlash rest with
      | [] => [[c]]
      | seg :: segs => (c :: seg) :: segs

/-- expandStep is the body of the Go inner loop over a segment's runes:
a rune mapped by `pieceChars` appends that piece; otherwise `blanks` empty
cells are appended, where `blanks` comes from `strconv.Atoi` with its error
ignored. -/
def expandStep (acc : List Piece) (c : Char) : List Piece :=
  let piece := pieceChars c
  if piece = Piece.Empty then acc ++ List.replicate (charAtoi c) Piece.Empty
  else acc ++ [piece]

/-- expandRow is the Go inner loop: fold `expandStep` over the segment's
characters starting from the empty `rowPieces` slice. -/
def expandRow (seg : List Char) : List Piece :=
  seg.foldl expandStep []

/-- Board mirrors the Go struct `Board` with its fixed `[8][8]Piece` array. -/
structure Board : Type where
  Pieces : Fin 8 → Fin 8 → Piece

instance : DecidableEq Board := fun a b =>
  decidable_of_iff (a.Pieces = b.Pieces)
    ⟨fun h => by cases a; cases b; simpa using h, fun h => by rw [h]⟩

/-- HTTPError models the observable part of `echo.NewHTTPError(code, msg)`. -/
structure HTTPError : Type where
  code : Nat
  message : String
deriving DecidableEq

/-- invalidFEN is the single error value both rejection paths build:
`echo.NewHTTPError(400, "Invalid FEN")`. -/
def invalidFEN : HTTPError := ⟨400, "Invalid FEN"⟩

/-- validate mirrors Go `validate`: regex check, split on `/`, expand each
segment, require each expanded row to have exactly 8 cells, and copy the
rows into the zero-initialized `[8][8]Piece` array (`copy` of a length-8
slice; indices past the segments keep the zero value `Empty`). The Go loop
returns the error at the first bad row; since the loop is otherwise
side-effect-free, checking all rows yields the same result. -/
def validate (board : String) : Except HTTPError Board :=
  if FEN board.toList then
    let segments := splitOnSlash board.toList
    let rows := segments.map expandRow
    if rows.all (fun r => r.length == 8) then
      Except.ok ⟨fun i j => (rows.getD i.1 []).getD j.1 Empty⟩
    else
      Except.error invalidFEN
  else
    Except.error invalidFEN

/-- segOK is what the regex requires of one segment: length 1 to 8 and all
characters in the class `[rnbqkpRNBQKP1-8]`. -/
def segOK (seg : List Char) : Prop :=
  1 ≤ seg.length ∧ seg.length ≤ 8 ∧ ∀ c ∈ seg, isFENChar c = true

instance (seg : List Char) : Decidable (segOK seg) := by
  unfold segOK
  infer_instance

/-- specExpandChar states what the spec says one character contributes to a
row: a digit `d` contributes `d` consecutive `Empty` cells, a letter
contributes one cell of the corresponding PieceKind. -/
def specExpandChar (c : Char) : List Piece :=
  if '1' ≤ c ∧ c ≤ '8' then List.replicate (c.toNat - 48) Piece.Empty
  else [pieceChars c]

/-- specExpandRow follows the spec's words for row expansion: consume
characters left to right, appending each character's contribution. -/
def specExpandRow : List Char → List Piece
  | [] => []
  | c :: rest => specExpandChar c ++ specExpandRow rest

/-!
Renderer embedding. The Go `render` draws into a zero-initialized 512x512
RGBA image: a full-canvas white fill with `draw.Src`, then for each cell in
row-major order a dark tile fill with `draw.Src` when `(row+column)%2 == 0`
and, for a non-empty cell, the piece image composited with `draw.Over`.
A destination pixel holds four 8-bit channels. A source pixel is consumed
through Go's `Color.RGBA()`, i.e. as alpha-premultiplied 16-bit channel
values, and `draw.Over` computes, per channel with m = 0xffff,
`uint8((uint32(dst8) * ((m - sa) * 0x101) / m + src16) >> 8)`. -/

/-- RGBA is one destination pixel of the canvas: four 8-bit channels. -/
structure RGBA : Type where
  r : Nat
  g : Nat
  b : Nat
  a : Nat
deriving DecidableEq, Repr

/-- Color16 is a source pixel as Go's `Color.RGBA()` yields it:
alpha-premultiplied channels in 0..0xffff. -/
structure Color16 : Type where
  r : Nat
  g : Nat
  b : Nat
  a : Nat
deriving DecidableEq, Repr

/-- overChan is one channel of Go's `draw.Over` on an RGBA destination:
`uint8((uint32(d) * ((0xffff - sa) * 0x101) / 0xffff + s) >> 8)`. -/
def overChan (d s sa : Nat) : Nat :=
  (d * ((65535 - sa) * 257) / 65535 + s) / 256

/-- overPixel composites one source pixel over one destination pixel with
Go's `draw.Over` arithmetic. -/
def overPixel (s : Color16) (d : RGBA) : RGBA :=
  ⟨overChan d.r s.r s.a, overChan d.g s.g s.a,
   overChan d.b s.b s.a, overChan d.a s.a s.a⟩

/-- Canvas is the pixel grid of an RGBA image, addressed as (x, y). -/
def Canvas : Type := Nat → Nat → RGBA

/-- PieceImage is one piece asset, read as (x, y) through `Color.RGBA()`. -/
def PieceImage : Type := Nat → Nat → Color16

/-- white is `image.White` written with `draw.Src`: opaque white. -/
def white : RGBA := ⟨255, 255, 255, 255⟩

/-- darkGray is `color.RGBA{0x4f, 0x4f, 0x4f, 0xff}` written with
`draw.Src`. -/
def darkGray : RGBA := ⟨0x4f, 0x4f, 0x4f, 0xff⟩

/-- fillRect is `draw.Draw(dst, Rect(x0,y0,x1,y1), uniform, zero, Src)`. -/
def fillRect (c : Canvas) (x0 y0 x1 y1 : Nat) (col : RGBA) : Canvas :=
  fun x y => if x0 ≤ x ∧ x < x1 ∧ y0 ≤ y ∧ y < y1 then col else c x y

/-- drawOver is `draw.Draw(dst, Rect(x0,y0,x1,y1), img, zero, Over)`: the
source point for destination (x, y) is (x-x0, y-y0). -/
def drawOver (c : Canvas) (x0 y0 x1 y1 : Nat) (img : PieceImage) : Canvas :=
  fun x y =>
    if x0 ≤ x ∧ x < x1 ∧ y0 ≤ y ∧ y < y1 then
      overPixel (img (x - x0) (y - y0)) (c x y)
    else c x y

/-- transparentCanvas is `image.NewRGBA`: all pixels zero. -/
def transparentCanvas : Canvas := fun _ _ => ⟨0, 0, 0, 0⟩

/-- drawCell is one iteration of the Go double loop: fill the tile dark
when `(row+column) % 2 == 0`, then composite the piece image unless the
cell is Empty. -/
def drawCell (b : Board) (assets : Piece → PieceImage) (c : Canvas)
    (row col : Fin 8) : Canvas :=
  let c1 := if (row.1 + col.1) % 2 == 0 then
      fillRect c (col.1 * 64) (row.1 * 64) (col.1 * 64 + 64) (row.1 * 64 + 64)
        darkGray
    else c
  let piece := b.Pieces row col
  if piece = Piece.Empty then c1
  else
    drawOver c1 (col.1 * 64) (row.1 * 64) (col.1 * 64 + 64) (row.1 * 64 + 64)
      (assets piece)

/-- RGBAImage is the produced bitmap: `image.NewRGBA(Rect(0,0,512,512))`
has width 512 and height 512. -/
structure RGBAImage : Type where
  width : Nat
  height : Nat
  pix : Canvas

/-- render mirrors the Go `render` drawing phase: white background over the
whole 512x512 canvas, then the row-major double loop over the 64 cells. -/
def render (b : Board) (assets : Piece → PieceImage) : RGBAImage :=
  ⟨512, 512,
    (List.finRange 8).foldl
      (fun c row =>
        (List.finRange 8).foldl (fun c col => drawCell b assets c row col) c)
      (fillRect transparentCanvas 0 0 512 512 white)⟩

/-- cellF is the effect of `drawCell` on a single pixel value: every drawing
operation in `drawCell` reads and writes each pixel independently. -/
def cellF (b : Board) (assets : Piece → PieceImage) (row col : Fin 8)
    (v : RGBA) (x y : Nat) : RGBA :=
  let v1 := if (row.1 + col.1) % 2 == 0 then
      (if col.1 * 64 ≤ x ∧ x < col.1 * 64 + 64 ∧
          row.1 * 64 ≤ y ∧ y < row.1 * 64 + 64 then darkGray else v)
    else v
  let piece := b.Pieces row col
  if piece = Piece.Empty then v1
  else
    (if col.1 * 64 ≤ x ∧ x < col.1 * 64 + 64 ∧
        row.1 * 64 ≤ y ∧ y < row.1 * 64 + 64 then
      overPixel (assets piece (x - col.1 * 64) (y - row.1 * 64)) v1
    else v1)

/-!
Round-trip serializer. The repository has no serializer; the spec's
round-trip law quantifies over one, described as: row-major,
run-length-encode maximal runs of consecutive Empty cells as digits, emit
the symbol letter for each non-empty cell, join the 8 rows with `/`. The
definitions below follow that description. -/

/-- pieceChar is the letter side of the symbol vocabulary for the 12
non-empty pieces (the serializer never applies it to `Empty`; that case is
given an arbitrary value to make the function total). -/
def pieceChar : Piece → Char
  | Piece.Empty => '1'
  | WhitePawn => 'P'
  | WhiteKnight => 'N'
  | WhiteBishop => 'B'
  | WhiteRook => 'R'
  | WhiteQueen => 'Q'
  | WhiteKing => 'K'
  | BlackPawn => 'p'
  | BlackKnight => 'n'
  | BlackBishop => 'b'
  | BlackRook => 'r'
  | BlackQueen => 'q'
  | BlackKing => 'k'

/-- serRow run-length-encodes one row as the spec describes: a non-empty
cell emits its letter; an Empty cell extends the digit run that the rest of
the row starts with (digits are capped at 8, which a row of at most 8 cells
never reaches). -/
def serRow : List Piece → List Char
  | [] => []
  | Piece.Empty :: rest =>
    (match serRow rest with
     | c :: cs =>
       if '1' ≤ c ∧ c ≤ '7' then Char.ofNat (c.toNat + 1) :: cs
       else '1' :: c :: cs
     | [] => ['1'])
  | p :: rest => pieceChar p :: serRow rest

/-- intercalateSlash joins the 8 serialized rows with `/`. -/
def intercalateSlash : List (List Char) → List Char
  | [] => []
  | [seg] => seg
  | seg :: rest => seg ++ '/' :: intercalateSlash rest

/-- serializeBoard re-serializes a Board to notation, row-major. -/
def serializeBoard (b : Board) : String :=
  String.mk (intercalateSlash ((List.finRange 8).map
    (fun i => serRow ((List.finRange 8).map (fun j => b.Pieces i j)))))

instance : DecidableEq (Except HTTPError Board) := fun a b =>
  match a, b with
  | .ok x, .ok y =>
    if h : x = y then .isTrue (by rw [h])
    else .isFalse (fun he => h (Except.ok.inj he))
  | .error x, .error y =>
    if h : x = y then .isTrue (by rw [h])
    else .isFalse (fun he => h (Except.error.inj he))
  | .ok _, .error _ => .isFalse (fun he => Except.noConfusion he)
  | .error _, .ok _ => .isFalse (fun he => Except.noConfusion he)

theorem Board.ext' {a b : Board} (h : a.Pieces = b.Pieces) : a = b := by
  cases a; cases b; simpa using h

theorem splitOnSlash_ne_nil (l : List Char) : splitOnSlash l ≠ [] := by
  induction l with
  | nil => simp [splitOnSlash]
  | cons c rest ih =>
    simp only [splitOnSlash]
    split
    · simp
    · split
      · simp
      · simp

theorem splitOnSlash_no_slash (l : List Char) (h : ∀ c ∈ l, c ≠ '/') :
    splitOnSlash l = [l] := by
  induction l with
  | nil => rfl
  | cons c rest ih =>
    have hc : c ≠ '/' := h c (by simp)
    have hr := ih (fun x hx => h x (by simp [hx]))
    simp [splitOnSlash, hc, hr]

theorem splitOnSlash_append (a t : List Char) (h : ∀ c ∈ a, c ≠ '/') :
    splitOnSlash (a ++ '/' :: t) = a :: splitOnSlash t := by
  induction a with
  | nil => simp [splitOnSlash]
  | cons c a ih =>
    have hc : c ≠ '/' := h c (by simp)
    have hr := ih (fun x hx => h x (by simp [hx]))
    rw [List.cons_append]
    simp only [splitOnSlash, if_neg hc, hr]

theorem splitOnSlash_head_mem (a : List Char) (c : Char) (t : List Char)
    (ha : ∀ x ∈ a, x ≠ '/') (hc : c ≠ '/') :
    ∃ seg segs, splitOnSlash (a ++ c :: t) = seg :: segs ∧ c ∈ seg := by
  induction a with
  | nil =>
    simp only [List.nil_append, splitOnSlash, if_neg hc]
    cases h : splitOnSlash t with
    | nil => exact absurd h (splitOnSlash_ne_nil t)
    | cons seg segs => exact ⟨c :: seg, segs, rfl, by simp⟩
  | cons x a ih =>
    have hx : x ≠ '/' := ha x (by simp)
    obtain ⟨seg, segs, hsplit, hmem⟩ := ih (fun y hy => ha y (by simp [hy]))
    rw [List.cons_append]
    simp only [splitOnSlash, if_neg hx, hsplit]
    exact ⟨x :: seg, segs, rfl, by simp [hmem]⟩

theorem isFENChar_ne_slash {c : Char} (h : isFENChar c = true) : c ≠ '/' := by
  intro hc
  subst hc
  simp [isFENChar] at h

theorem dropWhile_head_false {p : Char → Bool} :
    ∀ (l : List Char) (c : Char) (t : List Char),
      l.dropWhile p = c :: t → p c = false := by
  intro l
  induction l with
  | nil => intro c t h; simp [List.dropWhile] at h
  | cons d rest ih =>
    intro c t h
    rw [List.dropWhile_cons] at h
    by_cases hd : p d
    · rw [if_pos hd] at h
      exact ih c t h
    · rw [if_neg hd] at h
      cases h
      exact Bool.eq_false_iff.2 hd

/-- FENmatchAux accepts exactly the strings that split into `n+1` segments,
each of length 1 to 8 over the character class. -/
theorem FENmatchAux_iff (n : Nat) : ∀ l : List Char,
    (FENmatchAux n l = true ↔
      ((splitOnSlash l).length = n + 1 ∧ ∀ seg ∈ splitOnSlash l, segOK seg)) := by
  induction n with
  | zero =>
    intro l
    have hsplit : l.takeWhile isFENChar ++ l.dropWhile isFENChar = l :=
      List.takeWhile_append_dropWhile isFENChar l
    have htw : ∀ c ∈ l.takeWhile isFENChar, isFENChar c = true :=
      fun c hc => List.mem_takeWhile_imp hc
    have hns : ∀ x ∈ l.takeWhile isFENChar, x ≠ '/' :=
      fun x hx => isFENChar_ne_slash (htw x hx)
    cases hd : l.dropWhile isFENChar with
    | nil =>
      have hl : l.takeWhile isFENChar = l := by
        have h2 := hsplit
        rw [hd, List.append_nil] at h2
        exact h2
      have hfen : ∀ c ∈ l, isFENChar c = true := hl ▸ htw
      have hnsl : ∀ c ∈ l, c ≠ '/' := fun c hc => isFENChar_ne_slash (hfen c hc)
      rw [show FENmatchAux 0 l =
            (decide (1 ≤ (l.takeWhile isFENChar).length) &&
             decide ((l.takeWhile isFENChar).length ≤ 8) &&
             (l.dropWhile isFENChar).isEmpty) from rfl,
        hd, hl, splitOnSlash_no_slash l hnsl]
      simp only [List.isEmpty_nil, Bool.and_true, Bool.and_eq_true,
        decide_eq_true_eq, List.length_singleton, List.mem_singleton]
      constructor
      · rintro ⟨h1, h2⟩
        exact ⟨by trivial, fun seg hseg => by subst hseg; exact ⟨h1, h2, hfen⟩⟩
      · rintro ⟨-, h2⟩
        obtain ⟨h1, h2', -⟩ := h2 l rfl
        exact ⟨h1, h2'⟩
    | cons c t =>
      have hcFEN : isFENChar c = false := dropWhile_head_false l c t hd
      rw [show FENmatchAux 0 l =
            (decide (1 ≤ (l.takeWhile isFENChar).length) &&
             decide ((l.takeWhile isFENChar).length ≤ 8) &&
             (l.dropWhile isFENChar).isEmpty) from rfl, hd]
      by_cases hslash : c = '/'
      · subst hslash
        have hsp : splitOnSlash l = l.takeWhile isFENChar :: splitOnSlash t := by
          have h2 := splitOnSlash_append (l.takeWhile isFENChar) t hns
          rw [← hd, hsplit] at h2
          exact h2
        have hlen : 1 ≤ (splitOnSlash t).length :=
          List.length_pos.2 (splitOnSlash_ne_nil t)
        rw [hsp]
        simp only [List.isEmpty_cons, Bool.and_false, Bool.false_eq_true,
          false_iff, List.length_cons, not_and]
        intro hcontra
        omega
      · obtain ⟨seg, segs, hsp, hmem⟩ :
            ∃ seg segs, splitOnSlash l = seg :: segs ∧ c ∈ seg := by
          obtain ⟨seg, segs, h2, hmem⟩ :=
            splitOnSlash_head_mem (l.takeWhile isFENChar) c t hns hslash
          rw [← hd, hsplit] at h2
          exact ⟨seg, segs, h2, hmem⟩
        simp only [List.isEmpty_cons, Bool.and_false, Bool.false_eq_true,
          false_iff, not_and]
        intro _ hall
        obtain ⟨-, -, hfen⟩ := hall seg (by rw [hsp]; exact List.mem_cons_self ..)
        rw [hfen c hmem] at hcFEN
        cases hcFEN
  | succ n ih =>
    intro l
    have hsplit : l.takeWhile isFENChar ++ l.dropWhile isFENChar = l :=
      List.takeWhile_append_dropWhile isFENChar l
    have htw : ∀ c ∈ l.takeWhile isFENChar, isFENChar c = true :=
      fun c hc => List.mem_takeWhile_imp hc
    have hns : ∀ x ∈ l.takeWhile isFENChar, x ≠ '/' :=
      fun x hx => isFENChar_ne_slash (htw x hx)
    have hunfold : FENmatchAux (n + 1) l =
        (decide (1 ≤ (l.takeWhile isFENChar).length) &&
         decide ((l.takeWhile isFENChar).length ≤ 8) &&
         decide ((l.dropWhile isFENChar).head? = some '/') &&
         FENmatchAux n (l.dropWhile isFENChar).tail) := rfl
    cases hd : l.dropWhile isFENChar with
    | nil =>
      have hl : l.takeWhile isFENChar = l := by
        have h2 := hsplit
        rw [hd, List.append_nil] at h2
        exact h2
      have hfen : ∀ c ∈ l, isFENChar c = true := hl ▸ htw
      have hnsl : ∀ c ∈ l, c ≠ '/' := fun c hc => isFENChar_ne_slash (hfen c hc)
      rw [hunfold, hd, splitOnSlash_no_slash l hnsl]
      simp only [List.head?_nil, Bool.and_eq_true, decide_eq_true_eq,
        List.length_singleton]
      constructor
      · rintro ⟨⟨-, h⟩, -⟩
        cases h
      · rintro ⟨h1, -⟩
        exfalso
        omega
    | cons c t =>
      have hcFEN : isFENChar c = false := dropWhile_head_false l c t hd
      rw [hunfold, hd]
      by_cases hslash : c = '/'
      · subst hslash
        have hsp : splitOnSlash l = l.takeWhile isFENChar :: splitOnSlash t := by
          have h2 := splitOnSlash_append (l.takeWhile isFENChar) t hns
          rw [← hd, hsplit] at h2
          exact h2
        rw [hsp]
        simp only [List.head?_cons, List.tail_cons, Bool.and_eq_true,
          decide_eq_true_eq, List.length_cons, ih t, List.mem_cons]
        constructor
        · rintro ⟨⟨⟨h1, h2⟩, -⟩, h3, h4⟩
          refine ⟨by omega, ?_⟩
          rintro seg (rfl | hseg)
          · exact ⟨h1, h2, htw⟩
          · exact h4 seg hseg
        · rintro ⟨hlen, hall⟩
          obtain ⟨h1, h2, -⟩ := hall _ (Or.inl rfl)
          exact ⟨⟨⟨h1, h2⟩, by trivial⟩, by omega, fun seg hseg => hall seg (Or.inr hseg)⟩
      · obtain ⟨seg, segs, hsp, hmem⟩ :
            ∃ seg segs, splitOnSlash l = seg :: segs ∧ c ∈ seg := by
          obtain ⟨seg, segs, h2, hmem⟩ :=
            splitOnSlash_head_mem (l.takeWhile isFENChar) c t hns hslash
          rw [← hd, hsplit] at h2
          exact ⟨seg, segs, h2, hmem⟩
        have hhead : (some c = some '/') = False := by
          simp [hslash]
        simp only [List.head?_cons, hhead, decide_False, Bool.and_false,
          Bool.false_and, Bool.false_eq_true, false_iff, not_and]
        intro _ hall
        obtain ⟨-, -, hfen⟩ := hall seg (by rw [hsp]; exact List.mem_cons_self ..)
        rw [hfen c hmem] at hcFEN
        cases hcFEN

/-- FEN accepts exactly the strings that split on `/` into 8 segments of
1 to 8 class characters each. -/
theorem FEN_iff (l : List Char) :
    FEN l = true ↔
      ((splitOnSlash l).length = 8 ∧ ∀ seg ∈ splitOnSlash l, segOK seg) :=
  FENmatchAux_iff 7 l

theorem expandStep_append (acc : List Piece) (c : Char) :
    expandStep acc c = acc ++ expandStep [] c := by
  unfold expandStep
  by_cases h : pieceChars c = Piece.Empty <;> simp [h]

theorem foldl_expandStep_acc (seg : List Char) :
    ∀ acc : List Piece, seg.foldl expandStep acc = acc ++ seg.foldl expandStep [] := by
  induction seg with
  | nil => intro acc; simp
  | cons c seg ih =>
    intro acc
    rw [List.foldl_cons, ih (expandStep acc c), List.foldl_cons,
      ih (expandStep [] c), expandStep_append acc c, List.append_assoc]

theorem expandRow_cons (c : Char) (seg : List Char) :
    expandRow (c :: seg) = expandStep [] c ++ expandRow seg := by
  unfold expandRow
  rw [List.foldl_cons, foldl_expandStep_acc seg (expandStep [] c)]

theorem isFENChar_cases {c : Char} (h : isFENChar c = true) :
    c = 'r' ∨ c = 'n' ∨ c = 'b' ∨ c = 'q' ∨ c = 'k' ∨ c = 'p' ∨
    c = 'R' ∨ c = 'N' ∨ c = 'B' ∨ c = 'Q' ∨ c = 'K' ∨ c = 'P' ∨
    c = '1' ∨ c = '2' ∨ c = '3' ∨ c = '4' ∨ c = '5' ∨ c = '6' ∨
    c = '7' ∨ c = '8' := by
  simp only [isFENChar, Bool.or_eq_true, decide_eq_true_eq] at h
  tauto

theorem expandStep_eq_spec {c : Char} (h : isFENChar c = true) :
    expandStep [] c = specExpandChar c := by
  rcases isFENChar_cases h with rfl | rfl | rfl | rfl | rfl | rfl | rfl | rfl |
    rfl | rfl | rfl | rfl | rfl | rfl | rfl | rfl | rfl | rfl | rfl | rfl <;>
    decide

theorem expandRow_eq_spec (seg : List Char)
    (h : ∀ c ∈ seg, isFENChar c = true) :
    expandRow seg = specExpandRow seg := by
  induction seg with
  | nil => rfl
  | cons c rest ih =>
    rw [expandRow_cons, expandStep_eq_spec (h c (by simp)),
      ih (fun x hx => h x (by simp [hx]))]
    rfl

theorem validate_of_FEN (s : String) (h : FEN s.toList = true) :
    validate s =
      (if ((splitOnSlash s.toList).map expandRow).all (fun r => r.length == 8) then
         Except.ok ⟨fun i j =>
           ((((splitOnSlash s.toList).map expandRow).getD i.1 []).getD j.1 Piece.Empty)⟩
       else
         Except.error invalidFEN) := by
  unfold validate
  rw [h]
  simp

theorem validate_of_not_FEN (s : String) (h : FEN s.toList = false) :
    validate s = Except.error invalidFEN := by
  unfold validate
  rw [h]
  simp

/-- C1: every input string that does not match the structural pattern
(exactly 8 `/`-separated segments, each 1-8 characters from the class of
the 12 piece letters and digits 1-8) is rejected by `validate` with the
uniform `invalidFEN` failure and no Board; in particular a 7-segment input,
inputs containing the digit 9 or 0, and the empty string are rejected. -/
theorem C1_structural_reject :
    (∀ s : String,
      ¬((splitOnSlash s.toList).length = 8 ∧
          ∀ seg ∈ splitOnSlash s.toList, segOK seg) →
      validate s = Except.error invalidFEN) ∧
    validate "8/8/8/8/8/8/8" = Except.error invalidFEN ∧
    validate "9/8/8/8/8/8/8/8" = Except.error invalidFEN ∧
    validate "0/8/8/8/8/8/8/8" = Except.error invalidFEN ∧
    validate "" = Except.error invalidFEN := by
  refine ⟨fun s h => ?_, rfl, rfl, rfl, rfl⟩
  cases hF : FEN s.toList with
  | false => exact validate_of_not_FEN s hF
  | true => exact absurd ((FEN_iff s.toList).1 hF) h

/-- C1 witness: the empty string fails the structural pattern and is
rejected with the uniform failure. -/
theorem C1_structural_reject_witness :
    ¬((splitOnSlash "".toList).length = 8 ∧
        ∀ seg ∈ splitOnSlash "".toList, segOK seg) ∧
    validate "" = Except.error invalidFEN :=
  ⟨by decide, C1_structural_reject.1 "" (by decide)⟩

/-- C2: for every string passing the structural pattern, each segment
expands exactly as the spec describes (a piece letter gives one cell of the
corresponding PieceKind, a digit d gives d consecutive Empty cells); if
every expanded row has exactly 8 cells the rows are assigned into the Board
in order, and otherwise validate fails with the uniform failure. -/
theorem C2_row_expansion (s : String) (h : FEN s.toList = true) :
    (∀ seg ∈ splitOnSlash s.toList, expandRow seg = specExpandRow seg) ∧
    (((splitOnSlash s.toList).map specExpandRow).all
        (fun r => r.length == 8) = true →
      validate s = Except.ok ⟨fun i j =>
        ((((splitOnSlash s.toList).map specExpandRow).getD i.1 []).getD j.1
          Piece.Empty)⟩) ∧
    (((splitOnSlash s.toList).map specExpandRow).all
        (fun r => r.length == 8) = false →
      validate s = Except.error invalidFEN) := by
  have hOK := ((FEN_iff s.toList).1 h).2
  have hmap : (splitOnSlash s.toList).map expandRow
      = (splitOnSlash s.toList).map specExpandRow :=
    List.map_congr_left (fun seg hseg => expandRow_eq_spec seg (hOK seg hseg).2.2)
  have hv := validate_of_FEN s h
  rw [hmap] at hv
  refine ⟨fun seg hseg => expandRow_eq_spec seg (hOK seg hseg).2.2, ?_, ?_⟩
  · intro hall
    rw [hall] at hv
    simpa using hv
  · intro hall
    rw [hall] at hv
    simpa using hv

/-- C2 witness: the all-empty notation passes the pattern, all its rows
expand to 8 cells, and validate assigns the expanded rows. -/
theorem C2_row_expansion_witness :
    FEN "8/8/8/8/8/8/8/8".toList = true ∧
    ((∀ seg ∈ splitOnSlash "8/8/8/8/8/8/8/8".toList,
        expandRow seg = specExpandRow seg) ∧
      (((splitOnSlash "8/8/8/8/8/8/8/8".toList).map specExpandRow).all
          (fun r => r.length == 8) = true →
        validate "8/8/8/8/8/8/8/8" = Except.ok ⟨fun i j =>
          ((((splitOnSlash "8/8/8/8/8/8/8/8".toList).map specExpandRow).getD
            i.1 []).getD j.1 Piece.Empty)⟩) ∧
      (((splitOnSlash "8/8/8/8/8/8/8/8".toList).map specExpandRow).all
          (fun r => r.length == 8) = false →
        validate "8/8/8/8/8/8/8/8" = Except.error invalidFEN)) :=
  ⟨by decide, C2_row_expansion "8/8/8/8/8/8/8/8" (by decide)⟩

/-- C3: the expansion-count pass distinguishes inputs the pattern alone
cannot: "44/8/8/8/8/8/8/8" parses with row 0 all Empty, while any input
that passes the pattern but has a row expanding to other than 8 cells (such
as "88/8/8/8/8/8/8/8", whose first row expands to 16) is rejected. -/
theorem C3_expansion_count :
    (∃ b : Board, validate "44/8/8/8/8/8/8/8" = Except.ok b ∧
      ∀ j : Fin 8, b.Pieces 0 j = Piece.Empty) ∧
    (∀ s : String, FEN s.toList = true →
      (∃ seg ∈ splitOnSlash s.toList, (specExpandRow seg).length ≠ 8) →
      validate s = Except.error invalidFEN) ∧
    validate "88/8/8/8/8/8/8/8" = Except.error invalidFEN := by
  refine ⟨⟨_, rfl, by decide⟩, fun s h hseg => ?_, rfl⟩
  obtain ⟨seg, hmem, hlen⟩ := hseg
  have hOK := ((FEN_iff s.toList).1 h).2
  have hmap : (splitOnSlash s.toList).map expandRow
      = (splitOnSlash s.toList).map specExpandRow :=
    List.map_congr_left (fun x hx => expandRow_eq_spec x (hOK x hx).2.2)
  have hv := validate_of_FEN s h
  rw [hmap] at hv
  have hc : ((splitOnSlash s.toList).map specExpandRow).all
      (fun r => r.length == 8) = false := by
    apply Bool.eq_false_iff.2
    intro hall
    have := List.all_eq_true.1 hall _ (List.mem_map_of_mem specExpandRow hmem)
    exact hlen (by simpa using this)
  rw [hc] at hv
  simpa using hv

/-- C3 witness: "88/8/8/8/8/8/8/8" passes the structural pattern yet its
first row expands to 16 cells, so validate rejects it. -/
theorem C3_expansion_count_witness :
    FEN "88/8/8/8/8/8/8/8".toList = true ∧
    validate "88/8/8/8/8/8/8/8" = Except.error invalidFEN :=
  ⟨by decide,
    C3_expansion_count.2.1 "88/8/8/8/8/8/8/8" (by decide)
      ⟨['8', '8'], by decide, by decide⟩⟩

/-- C9: every rejection of validate is the single uniform failure value
(code 400, message "Invalid FEN"), and the result is always exactly one of
a complete Board or that failure. -/
theorem C9_uniform_failure :
    (∀ s : String,
      (∃ b : Board, validate s = Except.ok b) ∨
        validate s = Except.error invalidFEN) ∧
    (∀ (s : String) (e : HTTPError), validate s = Except.error e →
      e.code = 400 ∧ e.message = "Invalid FEN") := by
  have key : ∀ s : String,
      (∃ b : Board, validate s = Except.ok b) ∨
        validate s = Except.error invalidFEN := by
    intro s
    cases hF : FEN s.toList with
    | false => exact Or.inr (validate_of_not_FEN s hF)
    | true =>
      have hv := validate_of_FEN s hF
      cases hc : ((splitOnSlash s.toList).map expandRow).all
          (fun r => r.length == 8) with
      | false =>
        rw [hc] at hv
        exact Or.inr (by simpa using hv)
      | true =>
        rw [hc] at hv
        exact Or.inl ⟨_, by simpa using hv⟩
  refine ⟨key, fun s e he => ?_⟩
  rcases key s with ⟨b, hb⟩ | hb
  · rw [hb] at he
    cases he
  · rw [hb] at he
    injection he with h2
    rw [← h2]
    exact ⟨rfl, rfl⟩

/-- C9 witness: the empty string is rejected, and the rejection carries
code 400 and the stable message. -/
theorem C9_uniform_failure_witness :
    validate "" = Except.error invalidFEN ∧
    invalidFEN.code = 400 ∧ invalidFEN.message = "Invalid FEN" :=
  ⟨rfl, C9_uniform_failure.2 "" invalidFEN rfl⟩

theorem FENchar_digit {c : Char} (h : isFENChar c = true)
    (he : pieceChars c = Piece.Empty) :
    atoiSingle c = some (charAtoi c) ∧ 1 ≤ charAtoi c ∧ charAtoi c ≤ 8 := by
  rcases isFENChar_cases h with rfl | rfl | rfl | rfl | rfl | rfl | rfl | rfl |
    rfl | rfl | rfl | rfl | rfl | rfl | rfl | rfl | rfl | rfl | rfl | rfl <;>
    revert he <;> decide

/-- C10: under the precondition that the structural pattern matched, the
split yields exactly 8 segments (so every row index written into the 8-row
array is in bounds), and every segment character not mapped by pieceChars
is a digit on which the integer conversion succeeds with a value in 1..8,
so no internal partial operation of validate can fail. -/
theorem C10_internal_safety (s : String) (h : FEN s.toList = true) :
    (splitOnSlash s.toList).length = 8 ∧
    ∀ seg ∈ splitOnSlash s.toList, ∀ c ∈ seg,
      pieceChars c = Piece.Empty →
      atoiSingle c = some (charAtoi c) ∧ 1 ≤ charAtoi c ∧ charAtoi c ≤ 8 := by
  obtain ⟨hlen, hOK⟩ := (FEN_iff s.toList).1 h
  exact ⟨hlen, fun seg hseg c hc he =>
    FENchar_digit ((hOK seg hseg).2.2 c hc) he⟩

/-- C10 witness: on the all-empty notation the pattern matches, the split
has exactly 8 segments, and every unmapped character converts to a digit
value in 1..8. -/
theorem C10_internal_safety_witness :
    FEN "8/8/8/8/8/8/8/8".toList = true ∧
    ((splitOnSlash "8/8/8/8/8/8/8/8".toList).length = 8 ∧
      ∀ seg ∈ splitOnSlash "8/8/8/8/8/8/8/8".toList, ∀ c ∈ seg,
        pieceChars c = Piece.Empty →
        atoiSingle c = some (charAtoi c) ∧
          1 ≤ charAtoi c ∧ charAtoi c ≤ 8) :=
  ⟨by decide, C10_internal_safety "8/8/8/8/8/8/8/8" (by decide)⟩

/-- C4: parsing the standard starting position succeeds; row 0 holds the
black back rank in order rook, knight, bishop, queen, king, bishop, knight,
rook; row 1 holds 8 black pawns; rows 2-5 are entirely Empty; row 6 holds
8 white pawns; row 7 holds the white back rank (uppercase letters map to
white pieces, lowercase to black, segments map to rows top-down). -/
theorem C4_start_position :
    ∃ b : Board,
      validate "rnbqkbnr/pppppppp/8/8/8/8/PPPPPPPP/RNBQKBNR" = Except.ok b ∧
      b.Pieces 0 0 = BlackRook ∧ b.Pieces 0 1 = BlackKnight ∧
      b.Pieces 0 2 = BlackBishop ∧ b.Pieces 0 3 = BlackQueen ∧
      b.Pieces 0 4 = BlackKing ∧ b.Pieces 0 5 = BlackBishop ∧
      b.Pieces 0 6 = BlackKnight ∧ b.Pieces 0 7 = BlackRook ∧
      (∀ j : Fin 8, b.Pieces 1 j = BlackPawn) ∧
      (∀ j : Fin 8, b.Pieces 2 j = Piece.Empty) ∧
      (∀ j : Fin 8, b.Pieces 3 j = Piece.Empty) ∧
      (∀ j : Fin 8, b.Pieces 4 j = Piece.Empty) ∧
      (∀ j : Fin 8, b.Pieces 5 j = Piece.Empty) ∧
      (∀ j : Fin 8, b.Pieces 6 j = WhitePawn) ∧
      b.Pieces 7 0 = WhiteRook ∧ b.Pieces 7 1 = WhiteKnight ∧
      b.Pieces 7 2 = WhiteBishop ∧ b.Pieces 7 3 = WhiteQueen ∧
      b.Pieces 7 4 = WhiteKing ∧ b.Pieces 7 5 = WhiteBishop ∧
      b.Pieces 7 6 = WhiteKnight ∧ b.Pieces 7 7 = WhiteRook := by
  refine ⟨_, rfl, ?_⟩
  decide

theorem drawCell_apply (b : Board) (assets : Piece → PieceImage) (c : Canvas)
    (row col : Fin 8) (x y : Nat) :
    drawCell b assets c row col x y = cellF b assets row col (c x y) x y := by
  unfold drawCell cellF fillRect drawOver
  by_cases h2 : ((row.1 + col.1) % 2 == 0 : Bool) = true <;>
    by_cases hp : b.Pieces row col = Piece.Empty <;>
    by_cases hin : col.1 * 64 ≤ x ∧ x < col.1 * 64 + 64 ∧
      row.1 * 64 ≤ y ∧ y < row.1 * 64 + 64 <;>
    simp [h2, hp, hin]

theorem foldl_canvas_apply {α : Type} (g : Canvas → α → Canvas)
    (f : RGBA → α → RGBA) (x y : Nat) (h : ∀ c a, g c a x y = f (c x y) a) :
    ∀ (L : List α) (c : Canvas), (L.foldl g c) x y = L.foldl f (c x y) := by
  intro L
  induction L with
  | nil => intro c; rfl
  | cons a L ih => intro c; rw [List.foldl_cons, List.foldl_cons, ih, h]

theorem foldl_pixel_id {α : Type} (f : RGBA → α → RGBA) (L : List α)
    (h : ∀ a ∈ L, ∀ v, f v a = v) : ∀ v, L.foldl f v = v := by
  induction L with
  | nil => intro v; rfl
  | cons a L ih =>
    intro v
    rw [List.foldl_cons, h a (by simp) v]
    exact ih (fun a ha v => h a (by simp [ha]) v) v

theorem foldl_pixel_single {α : Type} (f : RGBA → α → RGBA) (L : List α)
    (o : α) (ho : o ∈ L) (hnd : L.Nodup)
    (hid : ∀ a ∈ L, a ≠ o → ∀ v, f v a = v) :
    ∀ v, L.foldl f v = f v o := by
  induction L with
  | nil => cases ho
  | cons a L ih =>
    intro v
    rw [List.foldl_cons]
    by_cases ha : a = o
    · subst ha
      have hnot : a ∉ L := (List.nodup_cons.1 hnd).1
      exact foldl_pixel_id f L
        (fun x hx v => hid x (by simp [hx]) (fun he => hnot (he ▸ hx)) v) (f v a)
    · rw [hid a (by simp) ha v]
      exact ih (List.mem_of_ne_of_mem (fun he => ha he.symm) ho)
        (List.nodup_cons.1 hnd).2 (fun x hx => hid x (by simp [hx])) v

theorem cellF_out (b : Board) (assets : Piece → PieceImage) (row col : Fin 8)
    (x y : Nat) (v : RGBA)
    (h : ¬(col.1 * 64 ≤ x ∧ x < col.1 * 64 + 64 ∧
        row.1 * 64 ≤ y ∧ y < row.1 * 64 + 64)) :
    cellF b assets row col v x y = v := by
  unfold cellF
  by_cases h2 : ((row.1 + col.1) % 2 == 0 : Bool) = true <;>
    by_cases hp : b.Pieces row col = Piece.Empty <;> simp [h2, hp, h]

/-- render_pix characterizes every pixel of the rendered bitmap in tile
coordinates: pixel (col*64+x0, row*64+y0) of tile (row, col) is the
checkerboard base (dark gray when `(row+col) % 2 = 0`, else the white
background), with the piece image composited over it when the cell is not
Empty. -/
theorem render_pix (b : Board) (assets : Piece → PieceImage)
    (row col : Fin 8) (x0 y0 : Nat) (hx : x0 < 64) (hy : y0 < 64) :
    (render b assets).pix (col.1 * 64 + x0) (row.1 * 64 + y0) =
      (if b.Pieces row col = Piece.Empty then
        (if (row.1 + col.1) % 2 = 0 then darkGray else white)
      else
        overPixel (assets (b.Pieces row col) x0 y0)
          (if (row.1 + col.1) % 2 = 0 then darkGray else white)) := by
  have hcol8 : col.1 < 8 := col.2
  have hrow8 : row.1 < 8 := row.2
  have h1 : (render b assets).pix (col.1 * 64 + x0) (row.1 * 64 + y0) =
      (List.finRange 8).foldl
        (fun v r => (List.finRange 8).foldl
          (fun v c => cellF b assets r c v (col.1 * 64 + x0) (row.1 * 64 + y0)) v)
        ((fillRect transparentCanvas 0 0 512 512 white)
          (col.1 * 64 + x0) (row.1 * 64 + y0)) := by
    apply foldl_canvas_apply
    intro c r
    apply foldl_canvas_apply
    intro c' cl
    exact drawCell_apply b assets c' r cl _ _
  have hbg : (fillRect transparentCanvas 0 0 512 512 white)
      (col.1 * 64 + x0) (row.1 * 64 + y0) = white := by
    unfold fillRect
    rw [if_pos ⟨by omega, by omega, by omega, by omega⟩]
  have hrow_id : ∀ r : Fin 8, r ≠ row → ∀ v,
      (List.finRange 8).foldl
        (fun v c => cellF b assets r c v (col.1 * 64 + x0) (row.1 * 64 + y0))
        v = v := by
    intro r hne v
    apply foldl_pixel_id
    intro c _ v'
    apply cellF_out
    rintro ⟨-, -, h3, h4⟩
    exact hne (Fin.ext (by omega))
  have hcol_id : ∀ c : Fin 8, c ≠ col → ∀ v,
      cellF b assets row c v (col.1 * 64 + x0) (row.1 * 64 + y0) = v := by
    intro c hne v
    apply cellF_out
    rintro ⟨h3, h4, -, -⟩
    exact hne (Fin.ext (by omega))
  rw [h1, hbg,
    foldl_pixel_single _ _ row (List.mem_finRange row) (List.nodup_finRange 8)
      (fun r _ hne v => hrow_id r hne v),
    foldl_pixel_single _ _ col (List.mem_finRange col) (List.nodup_finRange 8)
      (fun c _ hne v => hcol_id c hne v)]
  have hin : col.1 * 64 ≤ col.1 * 64 + x0 ∧ col.1 * 64 + x0 < col.1 * 64 + 64 ∧
      row.1 * 64 ≤ row.1 * 64 + y0 ∧ row.1 * 64 + y0 < row.1 * 64 + 64 :=
    ⟨by omega, by omega, by omega, by omega⟩
  have hxsub : col.1 * 64 + x0 - col.1 * 64 = x0 := by omega
  have hysub : row.1 * 64 + y0 - row.1 * 64 = y0 := by omega
  unfold cellF
  by_cases hp : b.Pieces row col = Piece.Empty <;>
    by_cases h2 : (row.1 + col.1) % 2 = 0 <;>
    simp [hp, h2, hin, hxsub, hysub]

theorem overChan_zero (d : Nat) (hd : d < 256) : overChan d 0 0 = d := by
  unfold overChan
  omega

theorem overPixel_transparent (d : RGBA)
    (h : d.r < 256 ∧ d.g < 256 ∧ d.b < 256 ∧ d.a < 256) :
    overPixel ⟨0, 0, 0, 0⟩ d = d := by
  obtain ⟨h1, h2, h3, h4⟩ := h
  cases d with
  | mk r g b a =>
    unfold overPixel
    rw [overChan_zero r h1, overChan_zero g h2, overChan_zero b h3,
      overChan_zero a h4]

/-- C5: for every Board, a tile pixel's base color is the opaque dark gray
0x4f4f4f exactly when `(row+col) % 2 = 0` and otherwise the opaque white
background (visible as-is on Empty cells, and as the destination of the
piece composite otherwise); tile (0,0) is dark, and exactly 32 of the 64
tiles satisfy the dark parity. -/
theorem C5_tile_parity :
    (∀ (b : Board) (assets : Piece → PieceImage) (row col : Fin 8)
        (x0 y0 : Nat), x0 < 64 → y0 < 64 → b.Pieces row col = Piece.Empty →
      (render b assets).pix (col.1 * 64 + x0) (row.1 * 64 + y0) =
        (if (row.1 + col.1) % 2 = 0 then darkGray else white)) ∧
    (∀ (b : Board) (assets : Piece → PieceImage) (row col : Fin 8)
        (x0 y0 : Nat), x0 < 64 → y0 < 64 → b.Pieces row col ≠ Piece.Empty →
      (render b assets).pix (col.1 * 64 + x0) (row.1 * 64 + y0) =
        overPixel (assets (b.Pieces row col) x0 y0)
          (if (row.1 + col.1) % 2 = 0 then darkGray else white)) ∧
    darkGray = ⟨0x4f, 0x4f, 0x4f, 0xff⟩ ∧
    ((0 : Fin 8).1 + (0 : Fin 8).1) % 2 = 0 ∧
    (Finset.univ.filter
      (fun p : Fin 8 × Fin 8 => (p.1.1 + p.2.1) % 2 = 0)).card = 32 := by
  refine ⟨fun b assets row col x0 y0 hx hy hp => ?_,
    fun b assets row col x0 y0 hx hy hp => ?_, rfl, rfl, by decide⟩
  · rw [render_pix b assets row col x0 y0 hx hy, if_pos hp]
  · rw [render_pix b assets row col x0 y0 hx hy, if_neg hp]

/-- C5 witness: on the all-empty board the top-left pixel of tile (0,0) is
the dark gray. -/
theorem C5_tile_parity_witness :
    (0 : Nat) < 64 ∧
    (⟨fun _ _ => Piece.Empty⟩ : Board).Pieces 0 0 = Piece.Empty ∧
    (render ⟨fun _ _ => Piece.Empty⟩ (fun _ _ _ => ⟨0, 0, 0, 0⟩)).pix
        ((0 : Fin 8).1 * 64 + 0) ((0 : Fin 8).1 * 64 + 0) =
      (if ((0 : Fin 8).1 + (0 : Fin 8).1) % 2 = 0 then darkGray else white) :=
  ⟨by decide, rfl,
    C5_tile_parity.1 ⟨fun _ _ => Piece.Empty⟩ (fun _ _ _ => ⟨0, 0, 0, 0⟩)
      0 0 0 0 (by decide) (by decide) rfl⟩

/-- C6: the rendered bitmap is exactly 512x512 with 4 channels, the
background fill is fully opaque white regardless of board content, an Empty
cell's tile shows nothing beyond its checkerboard color, and a non-empty
cell's tile region gets the 64x64 piece image composited with source-over
blending, so a fully transparent piece pixel lets the tile color show
through. -/
theorem C6_bitmap_composite :
    (∀ (b : Board) (assets : Piece → PieceImage),
      (render b assets).width = 512 ∧ (render b assets).height = 512) ∧
    white = ⟨255, 255, 255, 255⟩ ∧
    (∀ (b : Board) (assets : Piece → PieceImage) (row col : Fin 8)
        (x0 y0 : Nat), x0 < 64 → y0 < 64 → b.Pieces row col = Piece.Empty →
      (render b assets).pix (col.1 * 64 + x0) (row.1 * 64 + y0) =
        (if (row.1 + col.1) % 2 = 0 then darkGray else white)) ∧
    (∀ (b : Board) (assets : Piece → PieceImage) (row col : Fin 8)
        (x0 y0 : Nat), x0 < 64 → y0 < 64 → b.Pieces row col ≠ Piece.Empty →
      (render b assets).pix (col.1 * 64 + x0) (row.1 * 64 + y0) =
        overPixel (assets (b.Pieces row col) x0 y0)
          (if (row.1 + col.1) % 2 = 0 then darkGray else white)) ∧
    (∀ (b : Board) (assets : Piece → PieceImage) (row col : Fin 8)
        (x0 y0 : Nat), x0 < 64 → y0 < 64 → b.Pieces row col ≠ Piece.Empty →
      assets (b.Pieces row col) x0 y0 = ⟨0, 0, 0, 0⟩ →
      (render b assets).pix (col.1 * 64 + x0) (row.1 * 64 + y0) =
        (if (row.1 + col.1) % 2 = 0 then darkGray else white)) := by
  refine ⟨fun b assets => ⟨rfl, rfl⟩, rfl,
    fun b assets row col x0 y0 hx hy hp => ?_,
    fun b assets row col x0 y0 hx hy hp => ?_,
    fun b assets row col x0 y0 hx hy hp ht => ?_⟩
  · rw [render_pix b assets row col x0 y0 hx hy, if_pos hp]
  · rw [render_pix b assets row col x0 y0 hx hy, if_neg hp]
  · rw [render_pix b assets row col x0 y0 hx hy, if_neg hp, ht]
    by_cases h2 : (row.1 + col.1) % 2 = 0
    · rw [if_pos h2]
      exact overPixel_transparent darkGray (by decide)
    · rw [if_neg h2]
      exact overPixel_transparent white (by decide)

/-- C6 witness: a board whose cell (0,0) holds a white pawn with a fully
transparent asset pixel leaves the dark tile color visible at the top-left
pixel. -/
theorem C6_bitmap_composite_witness :
    (0 : Nat) < 64 ∧
    (⟨fun _ _ => WhitePawn⟩ : Board).Pieces 0 0 ≠ Piece.Empty ∧
    (render ⟨fun _ _ => WhitePawn⟩ (fun _ _ _ => ⟨0, 0, 0, 0⟩)).pix
        ((0 : Fin 8).1 * 64 + 0) ((0 : Fin 8).1 * 64 + 0) =
      (if ((0 : Fin 8).1 + (0 : Fin 8).1) % 2 = 0 then darkGray else white) :=
  ⟨by decide, by decide,
    C6_bitmap_composite.2.2.2.2 ⟨fun _ _ => WhitePawn⟩
      (fun _ _ _ => ⟨0, 0, 0, 0⟩) 0 0 0 0 (by decide) (by decide)
      (by decide) rfl⟩

/-- C8: render is deterministic: two invocations on pointwise-equal Boards
with pointwise-equal asset images produce bitmaps of the same dimensions
that agree on every pixel of the 512x512 canvas. -/
theorem C8_render_deterministic (b1 b2 : Board) (a1 a2 : Piece → PieceImage)
    (hb : ∀ i j, b1.Pieces i j = b2.Pieces i j)
    (ha : ∀ p x y, a1 p x y = a2 p x y) :
    (render b1 a1).width = (render b2 a2).width ∧
    (render b1 a1).height = (render b2 a2).height ∧
    ∀ x y : Nat, x < 512 → y < 512 →
      (render b1 a1).pix x y = (render b2 a2).pix x y := by
  refine ⟨rfl, rfl, fun x y hx hy => ?_⟩
  obtain ⟨row, col, x0, y0, hx0, hy0, rfl, rfl⟩ :
      ∃ (row col : Fin 8) (x0 y0 : Nat), x0 < 64 ∧ y0 < 64 ∧
        x = col.1 * 64 + x0 ∧ y = row.1 * 64 + y0 := by
    refine ⟨⟨y / 64, by omega⟩, ⟨x / 64, by omega⟩, x % 64, y % 64,
      Nat.mod_lt _ (by norm_num), Nat.mod_lt _ (by norm_num), ?_, ?_⟩
    · show x = x / 64 * 64 + x % 64
      omega
    · show y = y / 64 * 64 + y % 64
      omega
  rw [render_pix b1 a1 row col x0 y0 hx0 hy0,
    render_pix b2 a2 row col x0 y0 hx0 hy0]
  simp only [hb, ha]

/-- C8 witness: determinism instantiated with an empty board and a
transparent asset lookup. -/
theorem C8_render_deterministic_witness :
    (∀ i j : Fin 8, (⟨fun _ _ => Piece.Empty⟩ : Board).Pieces i j =
      (⟨fun _ _ => Piece.Empty⟩ : Board).Pieces i j) ∧
    ((render (⟨fun _ _ => Piece.Empty⟩ : Board) (fun _ _ _ => ⟨0, 0, 0, 0⟩)).width =
      (render (⟨fun _ _ => Piece.Empty⟩ : Board) (fun _ _ _ => ⟨0, 0, 0, 0⟩)).width ∧
    (render (⟨fun _ _ => Piece.Empty⟩ : Board) (fun _ _ _ => ⟨0, 0, 0, 0⟩)).height =
      (render (⟨fun _ _ => Piece.Empty⟩ : Board) (fun _ _ _ => ⟨0, 0, 0, 0⟩)).height ∧
    ∀ x y : Nat, x < 512 → y < 512 →
      (render (⟨fun _ _ => Piece.Empty⟩ : Board) (fun _ _ _ => ⟨0, 0, 0, 0⟩)).pix x y =
        (render (⟨fun _ _ => Piece.Empty⟩ : Board) (fun _ _ _ => ⟨0, 0, 0, 0⟩)).pix x y) :=
  ⟨fun _ _ => rfl,
    C8_render_deterministic ⟨fun _ _ => Piece.Empty⟩ ⟨fun _ _ => Piece.Empty⟩
      (fun _ _ _ => ⟨0, 0, 0, 0⟩) (fun _ _ _ => ⟨0, 0, 0, 0⟩)
      (fun _ _ => rfl) (fun _ _ _ => rfl)⟩

theorem serRow_cons_piece (p : Piece) (hp : p ≠ Piece.Empty)
    (t : List Piece) : serRow (p :: t) = pieceChar p :: serRow t := by
  cases p <;> first | exact absurd rfl hp | rfl

theorem serRow_cons_empty_cons (t : List Piece) (c : Char) (cs : List Char)
    (hsr : serRow t = c :: cs) :
    serRow (Piece.Empty :: t) =
      (if '1' ≤ c ∧ c ≤ '7' then Char.ofNat (c.toNat + 1) :: cs
       else '1' :: c :: cs) := by
  simp only [serRow, hsr]

theorem serRow_cons_empty_nil (t : List Piece) (hsr : serRow t = []) :
    serRow (Piece.Empty :: t) = ['1'] := by
  simp only [serRow, hsr]

theorem serRow_cons_ne_nil (h : Piece) (t : List Piece) :
    serRow (h :: t) ≠ [] := by
  cases h with
  | Empty =>
    rcases hsr : serRow t with _ | ⟨c, cs⟩
    · rw [serRow_cons_empty_nil t hsr]
      simp
    · rw [serRow_cons_empty_cons t c cs hsr]
      split <;> simp
  | WhitePawn | WhiteKnight | WhiteBishop | WhiteRook | WhiteQueen
  | WhiteKing | BlackPawn | BlackKnight | BlackBishop | BlackRook
  | BlackQueen | BlackKing => simp [serRow]

theorem serRow_eq_nil {row : List Piece} (h : serRow row = []) : row = [] := by
  cases row with
  | nil => rfl
  | cons p t => exact absurd h (serRow_cons_ne_nil p t)

theorem serRow_length_le (row : List Piece) :
    (serRow row).length ≤ row.length := by
  induction row with
  | nil => simp [serRow]
  | cons h t ih =>
    cases h with
    | Empty =>
      rcases hsr : serRow t with _ | ⟨c, cs⟩
      · rw [serRow_cons_empty_nil t hsr]
        simp
      · rw [serRow_cons_empty_cons t c cs hsr]
        have hle : (c :: cs).length ≤ t.length := hsr ▸ ih
        split <;> simp only [List.length_cons] at hle ⊢ <;> omega
    | WhitePawn | WhiteKnight | WhiteBishop | WhiteRook | WhiteQueen
    | WhiteKing | BlackPawn | BlackKnight | BlackBishop | BlackRook
    | BlackQueen | BlackKing =>
      simp only [serRow, List.length_cons]
      omega

theorem pieceChar_FEN (p : Piece) : isFENChar (pieceChar p) = true := by
  cases p <;> decide

theorem serRow_chars (row : List Piece) :
    ∀ c ∈ serRow row, isFENChar c = true := by
  induction row with
  | nil => simp [serRow]
  | cons h t ih =>
    cases h with
    | Empty =>
      rcases hsr : serRow t with _ | ⟨c, cs⟩
      · rw [serRow_cons_empty_nil t hsr]
        intro x hx
        rcases List.mem_singleton.1 hx with rfl
        decide
      · rw [serRow_cons_empty_cons t c cs hsr]
        have hcF : isFENChar c = true := ih c (by rw [hsr]; simp)
        have hcsF : ∀ x ∈ cs, isFENChar x = true :=
          fun x hx => ih x (by rw [hsr]; simp [hx])
        split
        · next hif =>
          intro x hx
          rcases List.mem_cons.1 hx with rfl | hx'
          · rcases isFENChar_cases hcF with rfl | rfl | rfl | rfl | rfl |
              rfl | rfl | rfl | rfl | rfl | rfl | rfl | rfl | rfl | rfl |
              rfl | rfl | rfl | rfl | rfl <;> revert hif <;> decide
          · exact hcsF x hx'
        · intro x hx
          rcases List.mem_cons.1 hx with rfl | hx'
          · decide
          · rcases List.mem_cons.1 hx' with rfl | hx''
            · exact hcF
            · exact hcsF x hx''
    | WhitePawn | WhiteKnight | WhiteBishop | WhiteRook | WhiteQueen
    | WhiteKing | BlackPawn | BlackKnight | BlackBishop | BlackRook
    | BlackQueen | BlackKing =>
      intro x hx
      rcases List.mem_cons.1 hx with rfl | hx'
      · decide
      · exact ih x hx'

theorem specExpandChar_inc {c : Char} (hF : isFENChar c = true)
    (h : '1' ≤ c ∧ c ≤ '7') :
    specExpandChar (Char.ofNat (c.toNat + 1)) =
      Piece.Empty :: specExpandChar c := by
  rcases isFENChar_cases hF with rfl | rfl | rfl | rfl | rfl | rfl | rfl |
    rfl | rfl | rfl | rfl | rfl | rfl | rfl | rfl | rfl | rfl | rfl | rfl |
    rfl <;> revert h <;> decide

theorem specExpandChar_pieceChar (p : Piece) (hp : p ≠ Piece.Empty) :
    specExpandChar (pieceChar p) = [p] := by
  cases p <;> first | exact absurd rfl hp | decide

theorem specExpandRow_serRow (row : List Piece) :
    specExpandRow (serRow row) = row := by
  induction row with
  | nil => rfl
  | cons h t ih =>
    by_cases hE : h = Piece.Empty
    · subst hE
      rcases hsr : serRow t with _ | ⟨c, cs⟩
      · rw [serRow_cons_empty_nil t hsr, serRow_eq_nil hsr]
        decide
      · rw [serRow_cons_empty_cons t c cs hsr]
        have hcF : isFENChar c = true := serRow_chars t c (by rw [hsr]; simp)
        have ih2 : specExpandRow (c :: cs) = t := by rw [← hsr]; exact ih
        split
        · next hif =>
          show specExpandChar (Char.ofNat (c.toNat + 1)) ++ specExpandRow cs =
            Piece.Empty :: t
          rw [specExpandChar_inc hcF hif, List.cons_append]
          rw [show specExpandChar c ++ specExpandRow cs = t from ih2]
        · show specExpandChar '1' ++ specExpandRow (c :: cs) = Piece.Empty :: t
          rw [ih2]
          rfl
    · rw [serRow_cons_piece h hE]
      show specExpandChar (pieceChar h) ++ specExpandRow (serRow t) = h :: t
      rw [specExpandChar_pieceChar h hE, ih]
      rfl

theorem serRow_ne_nil {row : List Piece} (h : row ≠ []) : serRow row ≠ [] := by
  cases row with
  | nil => exact absurd rfl h
  | cons p t => exact serRow_cons_ne_nil p t

theorem splitOnSlash_intercalate (segs : List (List Char)) (hne : segs ≠ [])
    (hns : ∀ seg ∈ segs, ∀ c ∈ seg, c ≠ '/') :
    splitOnSlash (intercalateSlash segs) = segs := by
  induction segs with
  | nil => exact absurd rfl hne
  | cons seg rest ih =>
    cases rest with
    | nil =>
      show splitOnSlash (intercalateSlash [seg]) = [seg]
      exact splitOnSlash_no_slash seg (hns seg (by simp))
    | cons s2 rest2 =>
      show splitOnSlash (seg ++ '/' :: intercalateSlash (s2 :: rest2)) =
        seg :: s2 :: rest2
      rw [splitOnSlash_append seg _ (hns seg (by simp))]
      rw [ih (by simp) (fun x hx c hc => hns x (by simp [hx]) c hc)]

theorem finRange_map_getD {α : Type} (f : Fin 8 → α) (d : α) (i : Fin 8) :
    ((List.finRange 8).map f).getD i.1 d = f i := by
  fin_cases i <;> rfl

theorem validate_serializeBoard (b : Board) :
    validate (serializeBoard b) = Except.ok b := by
  have hnoslash : ∀ seg ∈ (List.finRange 8).map
      (fun i => serRow ((List.finRange 8).map (fun j => b.Pieces i j))),
      ∀ c ∈ seg, c ≠ '/' := by
    intro seg hseg c hc
    obtain ⟨i, -, rfl⟩ := List.mem_map.1 hseg
    exact isFENChar_ne_slash (serRow_chars _ c hc)
  have hsplit : splitOnSlash (serializeBoard b).toList =
      (List.finRange 8).map
        (fun i => serRow ((List.finRange 8).map (fun j => b.Pieces i j))) := by
    show splitOnSlash (intercalateSlash _) = _
    exact splitOnSlash_intercalate _ (by simp) hnoslash
  have hsegOK : ∀ seg ∈ (List.finRange 8).map
      (fun i => serRow ((List.finRange 8).map (fun j => b.Pieces i j))),
      segOK seg := by
    intro seg hseg
    obtain ⟨i, -, rfl⟩ := List.mem_map.1 hseg
    refine ⟨?_, ?_, fun c hc => serRow_chars _ c hc⟩
    · exact List.length_pos.2 (serRow_ne_nil (by simp))
    · have h1 := serRow_length_le ((List.finRange 8).map (fun j => b.Pieces i j))
      simp only [List.length_map, List.length_finRange] at h1
      exact h1
  have hFEN : FEN (serializeBoard b).toList = true := by
    refine (FEN_iff _).2 ?_
    rw [hsplit]
    exact ⟨by simp, hsegOK⟩
  have hv := validate_of_FEN _ hFEN
  rw [hsplit] at hv
  have hexp : ∀ i : Fin 8,
      expandRow (serRow ((List.finRange 8).map (fun j => b.Pieces i j))) =
        (List.finRange 8).map (fun j => b.Pieces i j) := by
    intro i
    rw [expandRow_eq_spec _ (fun c hc => serRow_chars _ c hc),
      specExpandRow_serRow]
  have hmaps : ((List.finRange 8).map
      (fun i => serRow ((List.finRange 8).map (fun j => b.Pieces i j)))).map
        expandRow =
      (List.finRange 8).map
        (fun i => (List.finRange 8).map (fun j => b.Pieces i j)) := by
    rw [List.map_map]
    exact List.map_congr_left (fun i _ => hexp i)
  rw [hmaps] at hv
  have hall : ((List.finRange 8).map
      (fun i => (List.finRange 8).map (fun j => b.Pieces i j))).all
        (fun r => r.length == 8) = true := by
    rw [List.all_eq_true]
    intro r hr
    obtain ⟨i, -, rfl⟩ := List.mem_map.1 hr
    simp
  rw [hall] at hv
  simp only [eq_self_iff_true, if_true] at hv
  rw [hv]
  refine congrArg Except.ok (Board.ext' ?_)
  funext i j
  show (((List.finRange 8).map
      (fun i => (List.finRange 8).map (fun j => b.Pieces i j))).getD i.1
        []).getD j.1 Piece.Empty = b.Pieces i j
  rw [finRange_map_getD (fun i => (List.finRange 8).map (fun j => b.Pieces i j))
    [] i]
  rw [finRange_map_getD (fun j => b.Pieces i j) Piece.Empty j]

/-- C7: for every valid notation, parsing and then re-serializing the Board
(row-major, run-length-encoding maximal Empty runs as digits, symbol
letters for pieces) yields a notation that parses back to a Board equal to
the original — the round-trip law on the expanded grid. -/
theorem C7_roundtrip (s : String) (b : Board)
    (h : validate s = Except.ok b) :
    validate (serializeBoard b) = Except.ok b :=
  validate_serializeBoard b

/-- C7 witness: the all-empty notation parses to the all-empty board, whose
re-serialization parses back to the same board. -/
theorem C7_roundtrip_witness :
    validate "8/8/8/8/8/8/8/8" = Except.ok (⟨fun _ _ => Piece.Empty⟩ : Board) ∧
    validate (serializeBoard ⟨fun _ _ => Piece.Empty⟩) =
      Except.ok (⟨fun _ _ => Piece.Empty⟩ : Board) :=
  ⟨by decide,
    C7_roundtrip "8/8/8/8/8/8/8/8" ⟨fun _ _ => Piece.Empty⟩ (by decide)⟩
